import Mathlib

/-!
Verification of the centrality-estimation core of `gpseq_ce`
(`src/gpseq_ce/centrality.py`): the six per-condition metric calculators,
the three cross-condition combination strategies, the per-bin metric
dispatch of `bin_estimate`, and the `rank` transform.

Modelling conventions:
* A per-condition bin table (`st` in the source, a pandas data frame
  re-indexed to `0..N-1`) is a `List (CondRow α)`, one row per condition
  index, in order.
* Numeric fields are elements of an arbitrary field `α` (instantiated at
  `ℚ` or `ℝ` in the theorems); `np.log` is an explicit function parameter.
* The `assert ci < st.shape[0]` guard of every calculator is modelled by
  an `Option` result: `none` is the raised `AssertionError`, and the
  estimators propagate it monadically, as the Python exception would.
-/

namespace Gpseq

/-- One per-condition row of a bin table, with the columns
`chrom, start, end, sum, count, cond_nreads, mean, std` used by
`centrality.py` (`end` is spelled `end_`, a Lean keyword clash). -/
structure CondRow (α : Type) where
  chrom : String
  start : Int
  end_ : Int
  sum : α
  count : α
  cond_nreads : α
  mean : α
  std : α
deriving DecidableEq

variable {α : Type} [Field α]

/-- Embeds `calc_p`: restriction probability
`row.sum / (row.cond_nreads * row.count)` at row `ci`;
`none` models the failed `assert ci < st.shape[0]`. -/
def calc_p (st : List (CondRow α)) (ci : ℕ) : Option α :=
  if h : ci < st.length then
    let row := st.get ⟨ci, h⟩
    some (row.sum / (row.cond_nreads * row.count))
  else none

/-- Embeds `calc_pc`: cumulative restriction probability, recursively
`calc_p st 0` at index 0 and `calc_p st ci + calc_pc st (ci-1)` otherwise,
guarded by the same assertion. -/
def calc_pc (st : List (CondRow α)) : ℕ → Option α
  | 0 => if 0 < st.length then calc_p st 0 else none
  | ci + 1 =>
    if ci + 1 < st.length then
      (calc_p st (ci + 1)).bind (fun a => (calc_pc st ci).map (fun b => a + b))
    else none

/-- Embeds `calc_pr`: probability of cumulative restriction. For `ci = 0`
it is `calc_p st 0`; otherwise the pandas label slice `st.ix[:ci]`
(inclusive of `ci`) gives the ratio of sums over rows `0..ci`. -/
def calc_pr (st : List (CondRow α)) (ci : ℕ) : Option α :=
  if ci < st.length then
    if ci = 0 then calc_p st 0
    else
      some ((((st.take (ci + 1)).map (fun r => r.sum)).sum) /
        (((st.take (ci + 1)).map (fun r => r.cond_nreads * r.count)).sum))
  else none

/-- Embeds `calc_var`: `std^2` at row `ci`. -/
def calc_var (st : List (CondRow α)) (ci : ℕ) : Option α :=
  if h : ci < st.length then some ((st.get ⟨ci, h⟩).std ^ 2) else none

/-- Embeds `calc_ff` (Fano factor): `std^2 / mean` at row `ci`. -/
def calc_ff (st : List (CondRow α)) (ci : ℕ) : Option α :=
  if h : ci < st.length then
    let row := st.get ⟨ci, h⟩
    some (row.std ^ 2 / row.mean)
  else none

/-- Embeds `calc_cv` (coefficient of variation): `std / mean` at row `ci`. -/
def calc_cv (st : List (CondRow α)) (ci : ℕ) : Option α :=
  if h : ci < st.length then
    let row := st.get ⟨ci, h⟩
    some (row.std / row.mean)
  else none

/-- Embeds `est_2p`: `a = f1(st, 0)`, `b = f1(st, N-1)`, result `f2(b, a)`. -/
def est_2p {α : Type} (st : List (CondRow α)) (f1 : List (CondRow α) → ℕ → Option α)
    (f2 : α → α → α) : Option α := do
  let a ← f1 st 0
  let b ← f1 st (st.length - 1)
  pure (f2 b a)

/-- Embeds `est_f`: `out = 0; a = f1(st, 0); for i in range(1, N): out += f2(f1(st, i), a)`,
the Python loop becoming a monadic fold over `[1, ..., N-1]`. -/
def est_f (st : List (CondRow α)) (f1 : List (CondRow α) → ℕ → Option α)
    (f2 : α → α → α) : Option α := do
  let a ← f1 st 0
  (List.range' 1 (st.length - 1)).foldlM (fun out i => do
    let b ← f1 st i
    pure (out + f2 b a)) (0 : α)

/-- Embeds `est_g`: as `est_f` but the reference `a` is updated to the
previous `b` after every iteration; the fold state is `(out, a)`. -/
def est_g (st : List (CondRow α)) (f1 : List (CondRow α) → ℕ → Option α)
    (f2 : α → α → α) : Option α := do
  let a ← f1 st 0
  let r ← (List.range' 1 (st.length - 1)).foldlM (fun acc i => do
    let b ← f1 st i
    pure (acc.1 + f2 b acc.2, b)) ((0 : α), a)
  pure r.1

/-- Sample bin table used by the concrete witnesses: three conditions with
sums 10, 20, 30, counts 1 and condition-wide read totals 100 (the worked
scenario of the design notes), so the restriction probabilities are
`[1/10, 2/10, 3/10]`. -/
def stEx : List (CondRow ℚ) :=
  [⟨"chr1", 0, 100, 10, 1, 100, 10, 2⟩,
   ⟨"chr1", 0, 100, 20, 1, 100, 20, 3⟩,
   ⟨"chr1", 0, 100, 30, 1, 100, 30, 4⟩]

/-- Per-condition restriction probabilities of `stEx`. -/
def vEx : ℕ → ℚ := fun i => if i = 0 then 1/10 else if i = 1 then 2/10 else 3/10

/-- The `est_f` accumulation loop, fully evaluated when the metric calculator
succeeds on every index of the iteration list. -/
theorem foldlM_est_f_eq (st : List (CondRow α)) (f1 : List (CondRow α) → ℕ → Option α)
    (f2 : α → α → α) (v : ℕ → α) (a : α) :
    ∀ (l : List ℕ), (∀ i ∈ l, f1 st i = some (v i)) → ∀ c : α,
      l.foldlM (fun out i => (f1 st i).bind (fun b => some (out + f2 b a))) c =
        some (c + (l.map (fun i => f2 (v i) a)).sum) := by
  intro l
  induction l with
  | nil => intro _ c; simp
  | cons i t ih =>
    intro h c
    have hi : f1 st i = some (v i) := h i (by simp)
    have ih2 := ih (fun j hj => h j (by simp [hj])) (c + f2 (v i) a)
    simp [List.foldlM_cons, hi, ih2, add_assoc]

/-- The `est_g` accumulation loop: starting from accumulator `(c, v (j-1))`
and iterating over `[j, ..., j+k-1]`, it produces the rolling sum of
`f2` applied to consecutive metric values, carrying the last value. -/
theorem foldlM_est_g_eq (st : List (CondRow α)) (f1 : List (CondRow α) → ℕ → Option α)
    (f2 : α → α → α) (v : ℕ → α) :
    ∀ (k j : ℕ), 1 ≤ j → (∀ i ∈ List.range' j k, f1 st i = some (v i)) → ∀ c : α,
      (List.range' j k).foldlM
          (fun acc i => (f1 st i).bind (fun b => some (acc.1 + f2 b acc.2, b))) (c, v (j - 1)) =
      some (c + ((List.range' j k).map (fun i => f2 (v i) (v (i - 1)))).sum, v (j + k - 1)) := by
  intro k
  induction k with
  | zero => intro j hj h c; simp
  | succ k ih =>
    intro j hj h c
    have hjj : f1 st j = some (v j) := h j (by rw [List.range'_succ]; exact List.mem_cons_self _ _)
    have h2 : ∀ i ∈ List.range' (j + 1) k, f1 st i = some (v i) := by
      intro i hi
      exact h i (by rw [List.range'_succ]; exact List.mem_cons_of_mem _ hi)
    have ih2 := ih (j + 1) (by omega) h2 (c + f2 (v j) (v (j - 1)))
    simp only [Nat.add_sub_cancel] at ih2
    have hidx : j + 1 + k - 1 = j + (k + 1) - 1 := by omega
    rw [hidx] at ih2
    rw [List.range'_succ]
    simp [List.foldlM_cons, hjj, ih2, add_assoc]

omit [Field α] in
/-- Characterization of `est_2p` when the calculator succeeds at the two
endpoint indices. -/
theorem est_2p_eq (st : List (CondRow α)) (f1 : List (CondRow α) → ℕ → Option α)
    (f2 : α → α → α) (v : ℕ → α) (hN : 1 ≤ st.length)
    (hv : ∀ i, i < st.length → f1 st i = some (v i)) :
    est_2p st f1 f2 = some (f2 (v (st.length - 1)) (v 0)) := by
  have h0 := hv 0 hN
  have hN1 := hv (st.length - 1) (by omega)
  simp [est_2p, h0, hN1]

/-- Characterization of `est_f` as the sum of comparisons of every later
condition against condition `0`. -/
theorem est_f_eq (st : List (CondRow α)) (f1 : List (CondRow α) → ℕ → Option α)
    (f2 : α → α → α) (v : ℕ → α) (hN : 1 ≤ st.length)
    (hv : ∀ i, i < st.length → f1 st i = some (v i)) :
    est_f st f1 f2 =
      some (((List.range' 1 (st.length - 1)).map (fun i => f2 (v i) (v 0))).sum) := by
  have h0 := hv 0 hN
  have hmem : ∀ i ∈ List.range' 1 (st.length - 1), f1 st i = some (v i) := by
    intro i hi
    rw [List.mem_range'_1] at hi
    exact hv i (by omega)
  have hfold := foldlM_est_f_eq st f1 f2 v (v 0) (List.range' 1 (st.length - 1)) hmem 0
  rw [zero_add] at hfold
  simp [est_f, h0, hfold]

/-- Characterization of `est_g` as the rolling sum of comparisons of each
condition against its immediate predecessor. -/
theorem est_g_eq (st : List (CondRow α)) (f1 : List (CondRow α) → ℕ → Option α)
    (f2 : α → α → α) (v : ℕ → α) (hN : 1 ≤ st.length)
    (hv : ∀ i, i < st.length → f1 st i = some (v i)) :
    est_g st f1 f2 =
      some (((List.range' 1 (st.length - 1)).map (fun i => f2 (v i) (v (i - 1)))).sum) := by
  have h0 := hv 0 hN
  have hmem : ∀ i ∈ List.range' 1 (st.length - 1), f1 st i = some (v i) := by
    intro i hi
    rw [List.mem_range'_1] at hi
    exact hv i (by omega)
  have hfold := foldlM_est_g_eq st f1 f2 v (st.length - 1) 1 le_rfl hmem 0
  rw [zero_add] at hfold
  norm_num at hfold
  simp [est_g, h0, hfold]

/-- Claim C1: with `N >= 1` conditions and a calculator `f1` defined on all
condition indices (values `v`), `est_2p` returns `f2 (v (N-1)) (v 0)`,
`est_f` returns the sum over `i = 1..N-1` of `f2 (v i) (v 0)`, and `est_g`
returns the sum over `i = 1..N-1` of `f2 (v i) (v (i-1))`; the sums are
empty when `N = 1`. -/
theorem est_strategies_claim (st : List (CondRow α))
    (f1 : List (CondRow α) → ℕ → Option α) (f2 : α → α → α) (v : ℕ → α)
    (hN : 1 ≤ st.length) (hv : ∀ i, i < st.length → f1 st i = some (v i)) :
    est_2p st f1 f2 = some (f2 (v (st.length - 1)) (v 0)) ∧
    est_f st f1 f2 =
      some (((List.range' 1 (st.length - 1)).map (fun i => f2 (v i) (v 0))).sum) ∧
    est_g st f1 f2 =
      some (((List.range' 1 (st.length - 1)).map (fun i => f2 (v i) (v (i - 1)))).sum) :=
  ⟨est_2p_eq st f1 f2 v hN hv, est_f_eq st f1 f2 v hN hv, est_g_eq st f1 f2 v hN hv⟩

/-- The calculator `calc_p` evaluates to the probabilities `vEx` on the
sample table `stEx`. -/
theorem calc_p_stEx : ∀ i, i < stEx.length → calc_p stEx i = some (vEx i) := by
  intro i hi
  have h3 : i < 3 := by simpa [stEx] using hi
  interval_cases i <;> norm_num [calc_p, stEx, vEx]

/-- Witness for C1 on the worked three-condition example, with the ratio
combiner. -/
theorem est_strategies_claim_witness :
    (1 ≤ stEx.length ∧ ∀ i, i < stEx.length → calc_p stEx i = some (vEx i)) ∧
    (est_2p stEx calc_p (fun x y => x / y) = some ((fun x y => x / y) (vEx (stEx.length - 1)) (vEx 0)) ∧
    est_f stEx calc_p (fun x y => x / y) =
      some (((List.range' 1 (stEx.length - 1)).map (fun i => (fun x y => x / y) (vEx i) (vEx 0))).sum) ∧
    est_g stEx calc_p (fun x y => x / y) =
      some (((List.range' 1 (stEx.length - 1)).map (fun i => (fun x y => x / y) (vEx i) (vEx (i - 1)))).sum)) :=
  ⟨⟨by norm_num [stEx], calc_p_stEx⟩,
   est_strategies_claim stEx calc_p (fun x y => x / y) vEx (by norm_num [stEx]) calc_p_stEx⟩

/-- Closed form of `calc_pc`: the sum of the per-condition restriction
probabilities up to the requested index, inclusive. -/
theorem calc_pc_closed (st : List (CondRow α)) (p : ℕ → α)
    (hp : ∀ i, i < st.length → calc_p st i = some (p i)) :
    ∀ ci, ci < st.length → calc_pc st ci = some (∑ i in Finset.range (ci + 1), p i) := by
  intro ci
  induction ci with
  | zero =>
    intro h
    simp [calc_pc, h, hp 0 h]
  | succ ci ih =>
    intro h
    have hci : ci < st.length := by omega
    simp only [calc_pc, if_pos h, hp _ h, ih hci, Option.some_bind, Option.map_some']
    rw [Finset.sum_range_succ p (ci + 1), add_comm]

/-- Claim C2: `calc_pc st ci` is `calc_p st 0` at index 0 and
`calc_p st ci + calc_pc st (ci-1)` otherwise; consequently at the last
index it is the sum of `calc_p st i` over all `i < N`. -/
theorem calc_pc_claim (st : List (CondRow α)) (p : ℕ → α) (ci : ℕ)
    (hci : ci < st.length)
    (hp : ∀ i, i < st.length → calc_p st i = some (p i)) :
    (ci = 0 → calc_pc st ci = calc_p st 0) ∧
    (ci ≠ 0 → ∃ a b, calc_p st ci = some a ∧ calc_pc st (ci - 1) = some b ∧
      calc_pc st ci = some (a + b)) ∧
    calc_pc st (st.length - 1) = some (∑ i in Finset.range st.length, p i) := by
  refine ⟨?_, ?_, ?_⟩
  · rintro rfl
    simp [calc_pc, hci]
  · intro hne
    obtain ⟨k, rfl⟩ : ∃ k, ci = k + 1 := ⟨ci - 1, by omega⟩
    have hk : k < st.length := by omega
    refine ⟨p (k + 1), ∑ i in Finset.range (k + 1), p i, hp _ hci,
      calc_pc_closed st p hp k hk, ?_⟩
    rw [calc_pc_closed st p hp (k + 1) hci, Finset.sum_range_succ, add_comm]
  · have h1 : st.length - 1 < st.length := by omega
    have h2 : st.length - 1 + 1 = st.length := by omega
    rw [calc_pc_closed st p hp (st.length - 1) h1, h2]

/-- Witness for C2 at condition index 2 of the sample table. -/
theorem calc_pc_claim_witness :
    (2 < stEx.length ∧ ∀ i, i < stEx.length → calc_p stEx i = some (vEx i)) ∧
    ((2 = 0 → calc_pc stEx 2 = calc_p stEx 0) ∧
     ((2 : ℕ) ≠ 0 → ∃ a b, calc_p stEx 2 = some a ∧ calc_pc stEx (2 - 1) = some b ∧
       calc_pc stEx 2 = some (a + b)) ∧
     calc_pc stEx (stEx.length - 1) = some (∑ i in Finset.range stEx.length, vEx i)) :=
  ⟨⟨by norm_num [stEx], calc_p_stEx⟩,
   calc_pc_claim stEx vEx 2 (by norm_num [stEx]) calc_p_stEx⟩

/-- Two-condition table on which `calc_pr` and `calc_pc` disagree: the
per-condition denominators differ (`cond_nreads` 1 vs 2), so the ratio of
sums is 2/3 while the sum of ratios is 3/2. -/
def stNe : List (CondRow ℚ) :=
  [⟨"c", 0, 1, 1, 1, 1, 0, 0⟩, ⟨"c", 0, 1, 1, 1, 2, 0, 0⟩]

/-- Claim C3: `calc_pr st ci` is the ratio of the cumulative `sum` column
over rows `0..ci` to the cumulative `cond_nreads * count` over those rows,
and this ratio-of-sums differs in general from the sum-of-ratios `calc_pc`. -/
theorem calc_pr_claim (st : List (CondRow α)) (ci : ℕ) (hci : ci < st.length) :
    calc_pr st ci =
      some ((((st.take (ci + 1)).map (fun r => r.sum)).sum) /
        (((st.take (ci + 1)).map (fun r => r.cond_nreads * r.count)).sum)) ∧
    ∃ st2 : List (CondRow ℚ), ∃ ci2 : ℕ, ci2 < st2.length ∧
      calc_pr st2 ci2 ≠ calc_pc st2 ci2 := by
  constructor
  · match ci with
    | 0 =>
      match st, hci with
      | r :: t, _ => simp [calc_pr, calc_p]
    | ci + 1 => simp [calc_pr, hci]
  · refine ⟨stNe, 1, by norm_num [stNe], ?_⟩
    norm_num [calc_pr, calc_pc, calc_p, stNe]

/-- Witness for C3 at condition index 1 of the sample table. -/
theorem calc_pr_claim_witness :
    1 < stEx.length ∧
    (calc_pr stEx 1 =
      some ((((stEx.take (1 + 1)).map (fun r => r.sum)).sum) /
        (((stEx.take (1 + 1)).map (fun r => r.cond_nreads * r.count)).sum)) ∧
    ∃ st2 : List (CondRow ℚ), ∃ ci2 : ℕ, ci2 < st2.length ∧
      calc_pr st2 ci2 ≠ calc_pc st2 ci2) :=
  ⟨by norm_num [stEx], calc_pr_claim stEx 1 (by norm_num [stEx])⟩

/-- Claim C4: with a valid index and nonzero `cond_nreads` and `count`,
`calc_p` returns `sum / (cond_nreads * count)` of that row. -/
theorem calc_p_claim (st : List (CondRow α)) (ci : ℕ) (hci : ci < st.length)
    (hcn : (st.get ⟨ci, hci⟩).cond_nreads ≠ 0) (hc : (st.get ⟨ci, hci⟩).count ≠ 0) :
    calc_p st ci = some ((st.get ⟨ci, hci⟩).sum /
      ((st.get ⟨ci, hci⟩).cond_nreads * (st.get ⟨ci, hci⟩).count)) := by
  simp [calc_p, hci]

/-- Witness for C4 at condition index 0 of the sample table. -/
theorem calc_p_claim_witness :
    ((0 < stEx.length ∧ (stEx.get ⟨0, by norm_num [stEx]⟩).cond_nreads ≠ 0 ∧
      (stEx.get ⟨0, by norm_num [stEx]⟩).count ≠ 0) ∧
    calc_p stEx 0 = some ((stEx.get ⟨0, by norm_num [stEx]⟩).sum /
      ((stEx.get ⟨0, by norm_num [stEx]⟩).cond_nreads *
        (stEx.get ⟨0, by norm_num [stEx]⟩).count))) :=
  ⟨⟨by norm_num [stEx], by norm_num [stEx], by norm_num [stEx]⟩,
   calc_p_claim stEx 0 (by norm_num [stEx]) (by norm_num [stEx]) (by norm_num [stEx])⟩

/-- Claim C8: every one of the six metric calculators rejects a condition
index at or beyond the number of conditions: the assertion failure is
modelled as the `none` result, produced instead of any value. -/
theorem calc_precondition_claim (st : List (CondRow α)) (ci : ℕ) (h : st.length ≤ ci) :
    calc_p st ci = none ∧ calc_pc st ci = none ∧ calc_pr st ci = none ∧
    calc_var st ci = none ∧ calc_ff st ci = none ∧ calc_cv st ci = none := by
  have hn : ¬ ci < st.length := by omega
  refine ⟨by simp [calc_p, hn], ?_, by simp [calc_pr, hn],
    by simp [calc_var, hn], by simp [calc_ff, hn], by simp [calc_cv, hn]⟩
  match ci with
  | 0 =>
    simp only [calc_pc]
    rw [if_neg (by omega)]
  | k + 1 => simp [calc_pc, hn]

/-- Witness for C8: condition index 5 against the three-condition sample
table is rejected by all six calculators. -/
theorem calc_precondition_claim_witness :
    stEx.length ≤ 5 ∧
    (calc_p stEx 5 = none ∧ calc_pc stEx 5 = none ∧ calc_pr stEx 5 = none ∧
     calc_var stEx 5 = none ∧ calc_ff stEx 5 = none ∧ calc_cv stEx 5 = none) :=
  ⟨by norm_num [stEx], calc_precondition_claim stEx 5 (by norm_num [stEx])⟩

/-- List elements agree when the optional lookups agree. -/
theorem get_eq_of_getElem? {β : Type} {l1 l2 : List β} {i : ℕ}
    (h1 : i < l1.length) (h2 : i < l2.length) (h : l1[i]? = l2[i]?) :
    l1.get ⟨i, h1⟩ = l2.get ⟨i, h2⟩ := by
  rw [List.getElem?_eq_getElem h1, List.getElem?_eq_getElem h2] at h
  injection h

omit [Field α] in
/-- `est_2p` only evaluates its calculator at indices `0` and `N-1`, so any
calculator that agrees there gives equal two-point estimates. -/
theorem est_2p_congr (st1 st2 : List (CondRow α)) (f2 : α → α → α)
    (F : List (CondRow α) → ℕ → Option α)
    (h0 : F st1 0 = F st2 0)
    (hl : F st1 (st1.length - 1) = F st2 (st2.length - 1)) :
    est_2p st1 F f2 = est_2p st2 F f2 := by
  simp only [est_2p]
  rw [h0, hl]

/-- `calc_p` reads only the addressed row. -/
theorem calc_p_congr (st1 st2 : List (CondRow α)) (ci : ℕ)
    (hlen : st1.length = st2.length) (hrow : st1[ci]? = st2[ci]?) :
    calc_p st1 ci = calc_p st2 ci := by
  unfold calc_p
  by_cases h : ci < st1.length
  · have h2 : ci < st2.length := by omega
    rw [dif_pos h, dif_pos h2, get_eq_of_getElem? h h2 hrow]
  · rw [dif_neg h, dif_neg (by omega)]

/-- `calc_var` reads only the addressed row. -/
theorem calc_var_congr (st1 st2 : List (CondRow α)) (ci : ℕ)
    (hlen : st1.length = st2.length) (hrow : st1[ci]? = st2[ci]?) :
    calc_var st1 ci = calc_var st2 ci := by
  unfold calc_var
  by_cases h : ci < st1.length
  · have h2 : ci < st2.length := by omega
    rw [dif_pos h, dif_pos h2, get_eq_of_getElem? h h2 hrow]
  · rw [dif_neg h, dif_neg (by omega)]

/-- `calc_ff` reads only the addressed row. -/
theorem calc_ff_congr (st1 st2 : List (CondRow α)) (ci : ℕ)
    (hlen : st1.length = st2.length) (hrow : st1[ci]? = st2[ci]?) :
    calc_ff st1 ci = calc_ff st2 ci := by
  unfold calc_ff
  by_cases h : ci < st1.length
  · have h2 : ci < st2.length := by omega
    rw [dif_pos h, dif_pos h2, get_eq_of_getElem? h h2 hrow]
  · rw [dif_neg h, dif_neg (by omega)]

/-- `calc_cv` reads only the addressed row. -/
theorem calc_cv_congr (st1 st2 : List (CondRow α)) (ci : ℕ)
    (hlen : st1.length = st2.length) (hrow : st1[ci]? = st2[ci]?) :
    calc_cv st1 ci = calc_cv st2 ci := by
  unfold calc_cv
  by_cases h : ci < st1.length
  · have h2 : ci < st2.length := by omega
    rw [dif_pos h, dif_pos h2, get_eq_of_getElem? h h2 hrow]
  · rw [dif_neg h, dif_neg (by omega)]

/-- Claim C7 (amended): for the pointwise metric calculators `calc_p`,
`calc_var`, `calc_ff` and `calc_cv`, the two-point estimate depends only on
the condition records at indices `0` and `N-1`; two tables of equal length
agreeing on those two rows give identical two-point estimates. (For the
cumulative calculators `calc_pc` and `calc_pr` this fails, see the
counterexample.) -/
theorem est_2p_local_claim (st1 st2 : List (CondRow α)) (f2 : α → α → α)
    (hlen : st1.length = st2.length)
    (h0 : st1[0]? = st2[0]?)
    (hlast : st1[st1.length - 1]? = st2[st2.length - 1]?) :
    est_2p st1 calc_p f2 = est_2p st2 calc_p f2 ∧
    est_2p st1 calc_var f2 = est_2p st2 calc_var f2 ∧
    est_2p st1 calc_ff f2 = est_2p st2 calc_ff f2 ∧
    est_2p st1 calc_cv f2 = est_2p st2 calc_cv f2 := by
  have hlast2 : st1[st1.length - 1]? = st2[st1.length - 1]? := by
    rw [hlen] at hlast ⊢
    exact hlast
  have hp : calc_p st1 (st1.length - 1) = calc_p st2 (st2.length - 1) := by
    rw [calc_p_congr st1 st2 (st1.length - 1) hlen hlast2, hlen]
  have hv : calc_var st1 (st1.length - 1) = calc_var st2 (st2.length - 1) := by
    rw [calc_var_congr st1 st2 (st1.length - 1) hlen hlast2, hlen]
  have hf : calc_ff st1 (st1.length - 1) = calc_ff st2 (st2.length - 1) := by
    rw [calc_ff_congr st1 st2 (st1.length - 1) hlen hlast2, hlen]
  have hc : calc_cv st1 (st1.length - 1) = calc_cv st2 (st2.length - 1) := by
    rw [calc_cv_congr st1 st2 (st1.length - 1) hlen hlast2, hlen]
  exact ⟨est_2p_congr st1 st2 f2 calc_p (calc_p_congr st1 st2 0 hlen h0) hp,
    est_2p_congr st1 st2 f2 calc_var (calc_var_congr st1 st2 0 hlen h0) hv,
    est_2p_congr st1 st2 f2 calc_ff (calc_ff_congr st1 st2 0 hlen h0) hf,
    est_2p_congr st1 st2 f2 calc_cv (calc_cv_congr st1 st2 0 hlen h0) hc⟩

/-- Three-condition table with unit denominators, probabilities `[1, 1, 1]`. -/
def stLoc1 : List (CondRow ℚ) :=
  [⟨"c", 0, 1, 1, 1, 1, 1, 1⟩, ⟨"c", 0, 1, 1, 1, 1, 1, 1⟩, ⟨"c", 0, 1, 1, 1, 1, 1, 1⟩]

/-- As `stLoc1` but the `sum` of the middle condition is 2: it agrees with
`stLoc1` on rows 0 and 2 only. -/
def stLoc2 : List (CondRow ℚ) :=
  [⟨"c", 0, 1, 1, 1, 1, 1, 1⟩, ⟨"c", 0, 1, 2, 1, 1, 1, 1⟩, ⟨"c", 0, 1, 1, 1, 1, 1, 1⟩]

/-- Counterexample to C7 as stated: with the cumulative calculator
`calc_pc`, two tables agreeing on rows 0 and N-1 but differing at the
intermediate row give different two-point estimates (3 versus 4). -/
theorem est_2p_not_local_counterexample :
    stLoc1.length = stLoc2.length ∧ stLoc1[0]? = stLoc2[0]? ∧
    stLoc1[2]? = stLoc2[2]? ∧ stLoc1[1]? ≠ stLoc2[1]? ∧
    est_2p stLoc1 calc_pc (fun x y => x / y) ≠
      est_2p stLoc2 calc_pc (fun x y => x / y) := by
  refine ⟨rfl, rfl, rfl, by norm_num [stLoc1, stLoc2], ?_⟩
  have e1 : est_2p stLoc1 calc_pc (fun x y => x / y) = some 3 := by
    norm_num [est_2p, calc_pc, calc_p, stLoc1]
  have e2 : est_2p stLoc2 calc_pc (fun x y => x / y) = some 4 := by
    norm_num [est_2p, calc_pc, calc_p, stLoc2]
  rw [e1, e2]
  norm_num

/-- Witness for the amended C7 claim on the concrete pair of tables. -/
theorem est_2p_local_claim_witness :
    (stLoc1.length = stLoc2.length ∧ stLoc1[0]? = stLoc2[0]? ∧
      stLoc1[stLoc1.length - 1]? = stLoc2[stLoc2.length - 1]?) ∧
    (est_2p stLoc1 calc_p (fun x y => x / y) = est_2p stLoc2 calc_p (fun x y => x / y) ∧
     est_2p stLoc1 calc_var (fun x y => x / y) = est_2p stLoc2 calc_var (fun x y => x / y) ∧
     est_2p stLoc1 calc_ff (fun x y => x / y) = est_2p stLoc2 calc_ff (fun x y => x / y) ∧
     est_2p stLoc1 calc_cv (fun x y => x / y) = est_2p stLoc2 calc_cv (fun x y => x / y)) :=
  ⟨⟨rfl, rfl, rfl⟩, est_2p_local_claim stLoc1 stLoc2 (fun x y => x / y) rfl rfl rfl⟩

/-- Embeds the per-metric dispatch chain of `bin_estimate` (the long
`if m == "prob_2p": ... elif ...` block) for one bin table `st` and one
requested metric name `m`. The outer `Option` records whether the name is
recognized (`none` means the chain falls through and `orow[m]` is never
assigned); the inner `Option α` is the estimator result, `none` again
standing for a propagated assertion failure. `lg` models `np.log`. -/
def metricValue (lg : α → α) (st : List (CondRow α)) (m : String) : Option (Option α) :=
  if m = "prob_2p" then some (est_2p st calc_p (fun x y => x / y))
  else if m = "prob_f" then some (est_f st calc_p (fun x y => x / y))
  else if m = "prob_g" then some (est_g st calc_p (fun x y => x / y))
  else if m = "cor_2p" then some (est_2p st calc_pc (fun x y => x / y))
  else if m = "cor_f" then some (est_f st calc_pc (fun x y => x / y))
  else if m = "cor_g" then some (est_g st calc_pc (fun x y => x / y))
  else if m = "roc_2p" then some (est_2p st calc_pr (fun x y => x / y))
  else if m = "roc_f" then some (est_f st calc_pr (fun x y => x / y))
  else if m = "roc_g" then some (est_g st calc_pr (fun x y => x / y))
  else if m = "var_2p" then some (est_2p st calc_var (fun x y => lg (x / y)))
  else if m = "var_f" then some (est_f st calc_var (fun x y => lg (x / y)))
  else if m = "ff_2p" then some (est_2p st calc_ff (fun x y => y - x))
  else if m = "ff_f" then some (est_f st calc_ff (fun x y => y - x))
  else if m = "cv_2p" then some (est_2p st calc_cv (fun x y => y - x))
  else if m = "cv_f" then some (est_f st calc_cv (fun x y => y - x))
  else none

/-- The metric entries appended to `orow` by the dispatch loop of
`bin_estimate`, in request order: unrecognized names contribute nothing,
a failing estimator aborts the whole row (the Python exception). -/
def binMetricPairs (lg : α → α) (st : List (CondRow α)) : List String → Option (List (String × α))
  | [] => some []
  | m :: ms =>
    match metricValue lg st m with
    | none => binMetricPairs lg st ms
    | some r => r.bind (fun v => (binMetricPairs lg st ms).map (fun rest => (m, v) :: rest))

/-- The metric-column portion of a single-bin output row of `bin_estimate`
after the final positional renaming
of `odf.columns` (the list of the three coordinate names followed by
`mlist`, truncated to the produced width): the
computed metric values are paired with the first `k` requested names,
where `k` is the number of values actually produced. -/
def bin_estimate_row (lg : α → α) (st : List (CondRow α)) (mlist : List String) :
    Option (List (String × α)) :=
  (binMetricPairs lg st mlist).map
    (fun pairs => (mlist.take pairs.length).zip (pairs.map Prod.snd))

/-- Claim C5: the metric-to-combiner binding of `bin_estimate` is fixed:
every probability-family metric (`prob_*`, `cor_*`, `roc_*`) uses the ratio
`x / y`, the `var_*` metrics use the log-ratio `lg (x / y)`, and the `ff_*`
and `cv_*` metrics use the difference `y - x` of the earlier minus the
later value (the estimators pass the later value as first argument). -/
theorem bin_estimate_binding_claim (lg : α → α) (st : List (CondRow α)) :
    metricValue lg st "prob_2p" = some (est_2p st calc_p (fun x y => x / y)) ∧
    metricValue lg st "prob_f" = some (est_f st calc_p (fun x y => x / y)) ∧
    metricValue lg st "prob_g" = some (est_g st calc_p (fun x y => x / y)) ∧
    metricValue lg st "cor_2p" = some (est_2p st calc_pc (fun x y => x / y)) ∧
    metricValue lg st "cor_f" = some (est_f st calc_pc (fun x y => x / y)) ∧
    metricValue lg st "cor_g" = some (est_g st calc_pc (fun x y => x / y)) ∧
    metricValue lg st "roc_2p" = some (est_2p st calc_pr (fun x y => x / y)) ∧
    metricValue lg st "roc_f" = some (est_f st calc_pr (fun x y => x / y)) ∧
    metricValue lg st "roc_g" = some (est_g st calc_pr (fun x y => x / y)) ∧
    metricValue lg st "var_2p" = some (est_2p st calc_var (fun x y => lg (x / y))) ∧
    metricValue lg st "var_f" = some (est_f st calc_var (fun x y => lg (x / y))) ∧
    metricValue lg st "ff_2p" = some (est_2p st calc_ff (fun x y => y - x)) ∧
    metricValue lg st "ff_f" = some (est_f st calc_ff (fun x y => y - x)) ∧
    metricValue lg st "cv_2p" = some (est_2p st calc_cv (fun x y => y - x)) ∧
    metricValue lg st "cv_f" = some (est_f st calc_cv (fun x y => y - x)) := by
  refine ⟨?_, ?_, ?_, ?_, ?_, ?_, ?_, ?_, ?_, ?_, ?_, ?_, ?_, ?_, ?_⟩ <;> rfl

/-- Claim C6 is a code bug: requesting `["bogus", "prob_2p"]` on the sample
bin does not fail and computes the `prob_2p` estimate (value 3), but the
positional column renaming publishes that value under the column name
`"bogus"`, and no `"prob_2p"` column exists. -/
theorem bin_estimate_mislabel_claim :
    binMetricPairs (fun x : ℚ => x) stEx ["bogus", "prob_2p"] = some [("prob_2p", 3)] ∧
    bin_estimate_row (fun x : ℚ => x) stEx ["bogus", "prob_2p"] = some [("bogus", 3)] := by
  have h : est_2p stEx calc_p (fun x y : ℚ => x / y) = some 3 := by
    norm_num [est_2p, calc_p, stEx]
  constructor
  · simp [binMetricPairs, metricValue, h]
  · simp [bin_estimate_row, binMetricPairs, metricValue, h]

/-- Output table of `bin_estimate` as consumed by `rank`: the three
coordinate columns plus one named value column per metric. -/
structure EstTable (β : Type) where
  chrom : List String
  start : List Int
  end_ : List Int
  mcols : List (String × List β)
deriving DecidableEq

/-- Bin labels used by `rank`: the chromosome name alone when `chrWide`,
otherwise the `"chrom:start-end"` interval label built from the first
three columns of each row. -/
def rankLabels {β : Type} (cdf : EstTable β) (chrWide : Bool) : List String :=
  if chrWide then cdf.chrom
  else (cdf.chrom.zip (cdf.start.zip cdf.end_)).map
    (fun ce => ce.1 ++ ":" ++ toString ce.2.1 ++ "-" ++ toString ce.2.2)

/-- Embeds `np.argsort`: the index list `0..n-1` reordered so that the
addressed values are ascending (ties are resolved arbitrarily by the NumPy
quicksort; modelled with a sort on the indices). -/
def argsort {β : Type} [LinearOrder β] [Zero β] (xs : List β) : List ℕ :=
  List.insertionSort (fun i j => xs.getD i 0 ≤ xs.getD j 0) (List.range xs.length)

/-- Embeds `rank`: each requested metric that is present as a column of the
estimate table is mapped to the bin labels reordered by `argsort` of the
values of that metric; absent names are skipped. -/
def rank {β : Type} [LinearOrder β] [Zero β] (cdf : EstTable β) (mlist : List String)
    (chrWide : Bool) : List (String × List String) :=
  (mlist.filter (fun m => ((cdf.mcols.lookup m).isSome : Bool))).map
    (fun m => (m, (argsort ((cdf.mcols.lookup m).getD [])).map
      (fun i => (rankLabels cdf chrWide).getD i "")))

/-- Looking up a key in an association list built from a key-preserving map
returns the image of that key. -/
theorem lookup_map_self {γ : Type} {m : String} (g : String → γ) :
    ∀ (l : List String), m ∈ l → (l.map (fun x => (x, g x))).lookup m = some (g m) := by
  intro l
  induction l with
  | nil => intro h; cases h
  | cons x t ih =>
    intro h
    by_cases hx : m = x
    · subst hx
      simp [List.lookup]
    · have : m ∈ t := by
        rcases List.mem_cons.mp h with h1 | h1
        · exact absurd h1 hx
        · exact h1
      simpa [List.lookup, beq_false_of_ne hx] using ih this

/-- Reading every position of a list in order reproduces the list. -/
theorem map_getD_range {β : Type} (l : List β) (d : β) :
    (List.range l.length).map (fun i => l.getD i d) = l := by
  apply List.ext_getElem
  · simp
  · intro i h1 h2
    simp [List.getD_eq_getElem?_getD, List.getElem?_eq_getElem h2]

/-- Claim C9: for every requested metric `m` present as a column `vs` of the
estimate table, the rank output for `m` is a permutation of all bin labels,
reordered by ascending metric value (the value sequence read along the
argsort order is sorted); labels are the chromosome names when `chrWide`,
and `"chrom:start-end"` otherwise. -/
theorem rank_claim {β : Type} [LinearOrder β] [Zero β] (cdf : EstTable β)
    (mlist : List String) (chrWide : Bool) (m : String) (vs : List β)
    (hm : m ∈ mlist) (hcol : cdf.mcols.lookup m = some vs)
    (hlab : (rankLabels cdf chrWide).length = vs.length) :
    ∃ out, (rank cdf mlist chrWide).lookup m = some out ∧
      out.Perm (rankLabels cdf chrWide) ∧
      List.Sorted (fun a b => a ≤ b) ((argsort vs).map (fun i => vs.getD i 0)) ∧
      out = (argsort vs).map (fun i => (rankLabels cdf chrWide).getD i "") ∧
      (chrWide = true → rankLabels cdf chrWide = cdf.chrom) ∧
      (chrWide = false → rankLabels cdf chrWide =
        (cdf.chrom.zip (cdf.start.zip cdf.end_)).map
          (fun ce => ce.1 ++ ":" ++ toString ce.2.1 ++ "-" ++ toString ce.2.2)) := by
  have hp : ((cdf.mcols.lookup m).isSome : Bool) = true := by
    rw [hcol]
    rfl
  have hmem : m ∈ mlist.filter (fun m => ((cdf.mcols.lookup m).isSome : Bool)) :=
    List.mem_filter.mpr ⟨hm, hp⟩
  have hvs : ((cdf.mcols.lookup m).getD []) = vs := by
    rw [hcol]
    rfl
  refine ⟨(argsort vs).map (fun i => (rankLabels cdf chrWide).getD i ""), ?_, ?_, ?_, rfl, ?_, ?_⟩
  · simp only [rank]
    rw [lookup_map_self _ _ hmem, hvs]
  · have hperm : (argsort vs).Perm (List.range vs.length) := List.perm_insertionSort _ _
    have hmap := hperm.map (fun i => (rankLabels cdf chrWide).getD i "")
    rw [← hlab, map_getD_range] at hmap
    exact hmap
  · haveI : IsTotal ℕ (fun i j => vs.getD i 0 ≤ vs.getD j 0) := ⟨fun a b => le_total _ _⟩
    haveI : IsTrans ℕ (fun i j => vs.getD i 0 ≤ vs.getD j 0) :=
      ⟨fun a b c hab hbc => le_trans hab hbc⟩
    have hs := List.sorted_insertionSort (fun i j => vs.getD i 0 ≤ vs.getD j 0)
      (List.range vs.length)
    exact List.Pairwise.map _ (fun a b h => h) hs
  · intro h
    simp [rankLabels, h]
  · intro h
    simp [rankLabels, h]

/-- Two-bin estimate table used by the rank witness: one metric column
`"m1"` with values `[3, 1]`. -/
def cdfEx : EstTable ℚ := ⟨["c2", "c1"], [0, 10], [5, 15], [("m1", [3, 1])]⟩

/-- Witness for C9 on the two-bin table, ranking chromosome-wide. -/
theorem rank_claim_witness :
    ("m1" ∈ ["m1"] ∧ cdfEx.mcols.lookup "m1" = some [3, 1] ∧
      (rankLabels cdfEx true).length = ([3, 1] : List ℚ).length) ∧
    (∃ out, (rank cdfEx ["m1"] true).lookup "m1" = some out ∧
      out.Perm (rankLabels cdfEx true) ∧
      List.Sorted (fun a b => a ≤ b)
        ((argsort ([3, 1] : List ℚ)).map (fun i => ([3, 1] : List ℚ).getD i 0)) ∧
      out = (argsort ([3, 1] : List ℚ)).map (fun i => (rankLabels cdfEx true).getD i "") ∧
      (true = true → rankLabels cdfEx true = cdfEx.chrom) ∧
      (true = false → rankLabels cdfEx true =
        (cdfEx.chrom.zip (cdfEx.start.zip cdfEx.end_)).map
          (fun ce => ce.1 ++ ":" ++ toString ce.2.1 ++ "-" ++ toString ce.2.2))) :=
  ⟨⟨by simp, by simp [cdfEx], by simp [rankLabels, cdfEx]⟩,
   rank_claim cdfEx ["m1"] true "m1" [3, 1] (by simp) (by simp [cdfEx])
     (by simp [rankLabels, cdfEx])⟩

/-- Telescoping of a rolling difference over the index list `[s+1, ..., s+k]`. -/
theorem sum_range'_sub_telescope (g : ℕ → ℝ) :
    ∀ (k s : ℕ), ((List.range' (s + 1) k).map (fun i => g i - g (i - 1))).sum =
      g (s + k) - g s := by
  intro k
  induction k with
  | zero => intro s; simp
  | succ k ih =>
    intro s
    rw [List.range'_succ]
    simp only [List.map_cons, List.sum_cons, Nat.add_sub_cancel]
    rw [ih (s + 1)]
    have hidx : s + 1 + k = s + (k + 1) := by omega
    rw [hidx]
    ring

/-- Claim C10: with at least two conditions and a calculator `f1` strictly
positive on all condition indices, the global-strategy estimate with the
log-ratio combiner telescopes to the log-transformed two-point estimate:
both equal `log (v (N-1) / v 0)`. -/
theorem est_g_log_telescope_claim (st : List (CondRow ℝ))
    (f1 : List (CondRow ℝ) → ℕ → Option ℝ) (v : ℕ → ℝ)
    (hN : 2 ≤ st.length)
    (hv : ∀ i, i < st.length → f1 st i = some (v i))
    (hpos : ∀ i, i < st.length → 0 < v i) :
    est_g st f1 (fun x y => Real.log (x / y)) =
      some (Real.log (v (st.length - 1) / v 0)) ∧
    est_2p st f1 (fun x y => Real.log (x / y)) =
      some (Real.log (v (st.length - 1) / v 0)) := by
  have h1 : 1 ≤ st.length := by omega
  constructor
  · rw [est_g_eq st f1 _ v h1 hv]
    congr 1
    have hrw : ∀ i ∈ List.range' 1 (st.length - 1),
        (fun i => Real.log (v i / v (i - 1))) i =
          (fun i => Real.log (v i) - Real.log (v (i - 1))) i := by
      intro i hi
      rw [List.mem_range'_1] at hi
      have hip : 0 < v i := hpos i (by omega)
      have hip2 : 0 < v (i - 1) := hpos (i - 1) (by omega)
      exact Real.log_div (ne_of_gt hip) (ne_of_gt hip2)
    rw [List.map_congr_left hrw]
    have htel := sum_range'_sub_telescope (fun i => Real.log (v i)) (st.length - 1) 0
    simp only [zero_add] at htel
    rw [htel, Real.log_div (ne_of_gt (hpos _ (by omega))) (ne_of_gt (hpos 0 (by omega)))]
  · exact est_2p_eq st f1 _ v h1 hv

/-- Two-condition real-valued table for the telescoping witness:
probabilities `1/10` and `2/10`. -/
noncomputable def stR : List (CondRow ℝ) :=
  [⟨"chr1", 0, 100, 10, 1, 100, 10, 2⟩, ⟨"chr1", 0, 100, 20, 1, 100, 20, 3⟩]

/-- Restriction probabilities of `stR`. -/
noncomputable def vR : ℕ → ℝ := fun i => if i = 0 then 10 / (100 * 1) else 20 / (100 * 1)

/-- Witness for C10 on the two-condition real table with `calc_p`. -/
theorem est_g_log_telescope_claim_witness :
    (2 ≤ stR.length ∧ (∀ i, i < stR.length → calc_p stR i = some (vR i)) ∧
      (∀ i, i < stR.length → 0 < vR i)) ∧
    (est_g stR calc_p (fun x y => Real.log (x / y)) =
      some (Real.log (vR (stR.length - 1) / vR 0)) ∧
     est_2p stR calc_p (fun x y => Real.log (x / y)) =
      some (Real.log (vR (stR.length - 1) / vR 0))) := by
  have h2 : 2 ≤ stR.length := by norm_num [stR]
  have hv : ∀ i, i < stR.length → calc_p stR i = some (vR i) := by
    intro i hi
    have h : i < 2 := by simpa [stR] using hi
    interval_cases i <;> norm_num [calc_p, stR, vR]
  have hpos : ∀ i, i < stR.length → 0 < vR i := by
    intro i hi
    have h : i < 2 := by simpa [stR] using hi
    interval_cases i <;> norm_num [vR]
  exact ⟨⟨h2, hv, hpos⟩, est_g_log_telescope_claim stR calc_p vR h2 hv hpos⟩

end Gpseq
